import Mathlib

/-
Verification development for a chess program consisting of a material
evaluation function, a depth-limited minimax search with alpha-beta
pruning, and an interactive game-session loop (src/chess_game.py).

The program delegates chess rules to an external rules engine (the
python-chess library), which is out of scope per the design document;
it is modelled here abstractly through the interface the program uses
(legal-move enumeration, push/pop with a move stack, game-over test,
piece counting, side to move, piece lookup).

Scores are modelled by an integer type extended with the two infinities,
mirroring the program's use of -math.inf / math.inf sentinels next to
integer evaluations.  The program's final int(...) cast is the identity
on every finite value and is modelled as such; on the two infinite
sentinels the cast is unreachable whenever the rules engine satisfies
the documented property that a position without legal moves is terminal.
-/

namespace Chess

/-- Extended integers: the program mixes integer scores with the
float sentinels -math.inf and math.inf, so scores live in the
integers with a bottom and a top element adjoined. -/
abbrev EInt := WithBot (WithTop Int)

/-- Embedding of a plain integer score into the extended score type. -/
def EInt.ofInt (n : Int) : EInt := ((n : WithTop Int) : EInt)

/-- The two chess colors (chess.WHITE / chess.BLACK). -/
inductive Side where
  | white
  | black
deriving DecidableEq, Fintype

/-- The six chess piece kinds (chess.PAWN .. chess.KING). -/
inductive Piece where
  | pawn
  | knight
  | bishop
  | rook
  | queen
  | king
deriving DecidableEq, Fintype

/-- A move as the session code constructs it: chess.Move(origin, destination)
with an optional promotion piece (chess.Move equality compares all three
fields, so a promotion-less pawn push to the last rank is distinct from
every legal promotion move). -/
structure CMove where
  src : Nat
  dst : Nat
  promo : Option Piece
deriving DecidableEq

/-- Modelled from the spec: the external rules-engine interface of the
design document (the python-chess collaborator, whose code is not part of
this repository).  `moves` is the ordered legal-move enumeration,
`step` is the pure effect of applying one move to the raw position,
`gameOver` is is_game_over, `pieceCount` is len(board.pieces(kind, side)),
`turn` is board.turn and `pieceAt` is board.piece_at. -/
structure Rules (Pos : Type) (M : Type) where
  moves : Pos → List M
  step : Pos → M → Pos
  gameOver : Pos → Bool
  pieceCount : Pos → Piece → Side → Nat
  turn : Pos → Side
  pieceAt : Pos → Nat → Option (Piece × Side)

/-- Modelled from the spec: a rules engine is sane when a position with no
legal moves is terminal ("a position with no legal moves is, by
construction, terminal and handled by the base case"); python-chess
guarantees this (no legal moves means checkmate or stalemate). -/
abbrev Rules.Ok {Pos M : Type} (R : Rules Pos M) : Prop :=
  ∀ p, R.moves p = [] → R.gameOver p = true

/-- A board object as the program observes it: the current raw position
together with the stack of previous positions that board.push records and
board.pop restores. -/
structure Board (Pos : Type) where
  pos : Pos
  stack : List Pos
deriving DecidableEq

/-- board.push(move): apply the move and remember the previous state. -/
def Board.push {Pos M : Type} (R : Rules Pos M) (b : Board Pos) (m : M) : Board Pos :=
  ⟨R.step b.pos m, b.pos :: b.stack⟩

/-- board.pop(): restore the most recently pushed state.  The program only
ever pops right after a push, so the empty-stack case (an exception in
python-chess) is never reached; it is modelled as the identity. -/
def Board.pop {Pos : Type} (b : Board Pos) : Board Pos :=
  match b.stack with
  | [] => b
  | p :: rest => ⟨p, rest⟩

theorem Board.pop_push {Pos M : Type} (R : Rules Pos M) (b : Board Pos) (m : M) :
    (Board.push R b m).pop = b := rfl

/-- The PIECE_VALUES table of the source, in its iteration order. -/
def PIECE_VALUES : List (Piece × Int) :=
  [(Piece.pawn, 100), (Piece.knight, 320), (Piece.bishop, 330),
   (Piece.rook, 500), (Piece.queen, 900), (Piece.king, 20000)]

/-- evaluate_board (source lines 28-36): sum value * (white count - black
count) over the piece-value table, then negate when Black is to move. -/
def evaluate_board {Pos M : Type} (R : Rules Pos M) (p : Pos) : Int :=
  let score := PIECE_VALUES.foldl
    (fun acc kv =>
      acc + kv.2 * ((R.pieceCount p kv.1 Side.white : Int)
        - (R.pieceCount p kv.1 Side.black : Int)))
    0
  if R.turn p = Side.white then score else -score

/-- The maximizing move loop of minimax (source lines 43-55): push, recurse
via `f`, pop, raise the running maximum and alpha, and break out of the
loop as soon as beta <= alpha. -/
def maxLoop {Pos M : Type} (R : Rules Pos M)
    (f : Board Pos → EInt → EInt → EInt × Board Pos) :
    List M → Board Pos → EInt → EInt → EInt → EInt × Board Pos
  | [], b, _, _, best => (best, b)
  | m :: rest, b, alpha, beta, best =>
      let res := f (Board.push R b m) alpha beta
      let b2 := res.2.pop
      let best1 := if best < res.1 then res.1 else best
      let alpha1 := if alpha < res.1 then res.1 else alpha
      if beta ≤ alpha1 then (best1, b2)
      else maxLoop R f rest b2 alpha1 beta best1

/-- The minimizing move loop of minimax (source lines 56-68), symmetric to
`maxLoop` with the running minimum and beta. -/
def minLoop {Pos M : Type} (R : Rules Pos M)
    (f : Board Pos → EInt → EInt → EInt × Board Pos) :
    List M → Board Pos → EInt → EInt → EInt → EInt × Board Pos
  | [], b, _, _, best => (best, b)
  | m :: rest, b, alpha, beta, best =>
      let res := f (Board.push R b m) alpha beta
      let b2 := res.2.pop
      let best1 := if res.1 < best then res.1 else best
      let beta1 := if res.1 < beta then res.1 else beta
      if beta1 ≤ alpha then (best1, b2)
      else minLoop R f rest b2 alpha beta1 best1

/-- minimax (source lines 39-68).  The board is threaded explicitly so that
the mutation discipline (every push matched by a pop, also on pruning
exits) is part of the model; the first component is the returned score. -/
def minimax {Pos M : Type} (R : Rules Pos M) :
    Nat → Board Pos → EInt → EInt → Bool → EInt × Board Pos
  | 0, b, _, _, _ => (EInt.ofInt (evaluate_board R b.pos), b)
  | d + 1, b, alpha, beta, maximizing =>
      if R.gameOver b.pos then (EInt.ofInt (evaluate_board R b.pos), b)
      else if maximizing then
        maxLoop R (fun b' a c => minimax R d b' a c false) (R.moves b.pos) b alpha beta ⊥
      else
        minLoop R (fun b' a c => minimax R d b' a c true) (R.moves b.pos) b alpha beta ⊤

/-- The root move loop of get_best_move (source lines 74-80): push, score
the child with minimax over the full window, pop, and keep the move whose
value strictly exceeds the best seen so far. -/
def bestLoop {Pos M : Type} (R : Rules Pos M)
    (f : Board Pos → EInt × Board Pos) :
    List M → Board Pos → Option M → EInt → Option M × Board Pos
  | [], b, bm, _ => (bm, b)
  | m :: rest, b, bm, bv =>
      let res := f (Board.push R b m)
      let b2 := res.2.pop
      if bv < res.1 then bestLoop R f rest b2 (some m) res.1
      else bestLoop R f rest b2 bm bv

/-- get_best_move (source lines 71-81). -/
def get_best_move {Pos M : Type} (R : Rules Pos M) (b : Board Pos) (depth : Nat) :
    Option M × Board Pos :=
  bestLoop R (fun b' => minimax R (depth - 1) b' ⊥ ⊤ false) (R.moves b.pos) b none ⊥

/-- Modelled from the spec: the maximizing loop of the exhaustive
(non-pruning) minimax, i.e. `maxLoop` with the "if beta <= alpha: break"
line removed and nothing else changed. -/
def maxLoopNP {Pos M : Type} (R : Rules Pos M)
    (f : Board Pos → EInt → EInt → EInt × Board Pos) :
    List M → Board Pos → EInt → EInt → EInt → EInt × Board Pos
  | [], b, _, _, best => (best, b)
  | m :: rest, b, alpha, beta, best =>
      let res := f (Board.push R b m) alpha beta
      let b2 := res.2.pop
      let best1 := if best < res.1 then res.1 else best
      let alpha1 := if alpha < res.1 then res.1 else alpha
      maxLoopNP R f rest b2 alpha1 beta best1

/-- Modelled from the spec: the minimizing loop of the exhaustive minimax,
`minLoop` with the pruning break removed. -/
def minLoopNP {Pos M : Type} (R : Rules Pos M)
    (f : Board Pos → EInt → EInt → EInt × Board Pos) :
    List M → Board Pos → EInt → EInt → EInt → EInt × Board Pos
  | [], b, _, _, best => (best, b)
  | m :: rest, b, alpha, beta, best =>
      let res := f (Board.push R b m) alpha beta
      let b2 := res.2.pop
      let best1 := if res.1 < best then res.1 else best
      let beta1 := if res.1 < beta then res.1 else beta
      minLoopNP R f rest b2 alpha beta1 best1

/-- Modelled from the spec: exhaustive fixed-depth minimax, identical to
`minimax` except that both pruning breaks are removed. -/
def minimaxNP {Pos M : Type} (R : Rules Pos M) :
    Nat → Board Pos → EInt → EInt → Bool → EInt × Board Pos
  | 0, b, _, _, _ => (EInt.ofInt (evaluate_board R b.pos), b)
  | d + 1, b, alpha, beta, maximizing =>
      if R.gameOver b.pos then (EInt.ofInt (evaluate_board R b.pos), b)
      else if maximizing then
        maxLoopNP R (fun b' a c => minimaxNP R d b' a c false) (R.moves b.pos) b alpha beta ⊥
      else
        minLoopNP R (fun b' a c => minimaxNP R d b' a c true) (R.moves b.pos) b alpha beta ⊤

/-- Modelled from the spec: get_best_move driven by the exhaustive minimax
(the root loop itself contains no pruning and is unchanged). -/
def get_best_moveNP {Pos M : Type} (R : Rules Pos M) (b : Board Pos) (depth : Nat) :
    Option M × Board Pos :=
  bestLoop R (fun b' => minimaxNP R (depth - 1) b' ⊥ ⊤ false) (R.moves b.pos) b none ⊥

/-- The exhaustive minimax value of a position (window arguments are inert
in the non-pruning search, see `minimaxNP_fst_window`). -/
def V {Pos M : Type} (R : Rules Pos M) (d : Nat) (b : Board Pos) (mx : Bool) : EInt :=
  (minimaxNP R d b ⊥ ⊤ mx).1

/-- Modelled from the spec: the fixed piece-value table sum, "(count of
that kind belonging to side A) minus (count belonging to side B),
multiply by the kind's value, and sum across kinds", with A = White. -/
def specMaterial {Pos M : Type} (R : Rules Pos M) (p : Pos) : Int :=
  100 * ((R.pieceCount p Piece.pawn Side.white : Int) - (R.pieceCount p Piece.pawn Side.black : Int))
  + 320 * ((R.pieceCount p Piece.knight Side.white : Int) - (R.pieceCount p Piece.knight Side.black : Int))
  + 330 * ((R.pieceCount p Piece.bishop Side.white : Int) - (R.pieceCount p Piece.bishop Side.black : Int))
  + 500 * ((R.pieceCount p Piece.rook Side.white : Int) - (R.pieceCount p Piece.rook Side.black : Int))
  + 900 * ((R.pieceCount p Piece.queen Side.white : Int) - (R.pieceCount p Piece.queen Side.black : Int))
  + 20000 * ((R.pieceCount p Piece.king Side.white : Int) - (R.pieceCount p Piece.king Side.black : Int))

/-- player_color (source line 141). -/
def player_color : Side := Side.white

/-- ai_depth (source line 142). -/
def ai_depth : Nat := 2

/-- The input events the session loop reacts to: pygame.QUIT and a
MOUSEBUTTONDOWN already resolved to a board square (the pixel-to-square
arithmetic belongs to the display adapter, out of scope). -/
inductive Event where
  | quit
  | click (sq : Nat)

/-- The session state owned by main (source lines 138-142): the board, the
pending origin square (selected_square) and the running flag. -/
structure MainState (Pos : Type) where
  board : Board Pos
  selected : Option Nat
  running : Bool
deriving DecidableEq

/-- The event-processing loop of one main-loop iteration (source lines
145-164): QUIT stops processing and clears running; a click while it is
the human's turn either records an origin (a square holding one of the
human's pieces) or, with an origin pending, commits the constructed move
if it is legal and clears the pending origin either way. -/
def procEvents {Pos : Type} (R : Rules Pos CMove) :
    List Event → MainState Pos → MainState Pos
  | [], st => st
  | e :: rest, st =>
      match e with
      | Event.quit => { st with running := false }
      | Event.click sq =>
          if R.turn st.board.pos = player_color then
            match st.selected with
            | none =>
                match R.pieceAt st.board.pos sq with
                | some pc =>
                    if pc.2 = player_color then
                      procEvents R rest { st with selected := some sq }
                    else procEvents R rest st
                | none => procEvents R rest st
            | some orig =>
                let m : CMove := ⟨orig, sq, none⟩
                procEvents R rest
                  { st with
                    board := if m ∈ R.moves st.board.pos then Board.push R st.board m
                             else st.board,
                    selected := none }
          else procEvents R rest st

/-- The AI phase of one main-loop iteration (source lines 167-172):
invoke the search only when it is the engine's turn and the game is not
over; the boolean records whether the search engine was invoked. -/
def aiPhase {Pos : Type} (R : Rules Pos CMove) (st : MainState Pos) :
    MainState Pos × Bool :=
  if R.turn st.board.pos ≠ player_color ∧ R.gameOver st.board.pos = false then
    match (get_best_move R st.board ai_depth).1 with
    | some m => ({ st with board := Board.push R st.board m }, true)
    | none => (st, true)
  else (st, false)

/-- The end-detection phase of one main-loop iteration (source lines
190-194): when the game is over the session stops running (terminal). -/
def endPhase {Pos : Type} (R : Rules Pos CMove) (st : MainState Pos) : MainState Pos :=
  if R.gameOver st.board.pos = true then { st with running := false } else st

/-- One iteration of the while loop of main (source lines 144-196):
process the pending events, run the AI phase, then detect termination.
The boolean reports whether the search engine was invoked. -/
def loopIter {Pos : Type} (R : Rules Pos CMove) (evs : List Event) (st : MainState Pos) :
    MainState Pos × Bool :=
  let st1 := procEvents R evs st
  let ai := aiPhase R st1
  (endPhase R ai.1, ai.2)

/-
Concrete rules-engine instances used as test positions.  `demoRules`
models the legal moves and material of the position with White king b4,
Black king h8 and an undefended Black queen a4 (FEN
"7k/8/8/8/qK6/8/8/8 w - - 0 1"): White's legal moves are exactly Kxa4
(the unique queen capture), Kc5 and Kc3 (both materially neutral).
-/

/-- The four positions of the demo scenario: the start position, the
position after the queen capture (bare kings, a terminal draw), and the
two positions after the neutral king moves. -/
inductive DemoPos where
  | P0
  | P1
  | P2
  | P3
deriving DecidableEq, Fintype

/-- Kb4xa4, capturing the undefended queen (squares are 0..63, a4 = 24,
b4 = 25). -/
def demoCap : CMove := ⟨25, 24, none⟩

/-- Kb4-c5, materially neutral (c5 = 34). -/
def demoQ1 : CMove := ⟨25, 34, none⟩

/-- Kb4-c3, materially neutral (c3 = 18). -/
def demoQ2 : CMove := ⟨25, 18, none⟩

/-- Piece counts of the demo positions: both kings everywhere, plus the
Black queen except after the capture. -/
def demoCount : DemoPos → Piece → Side → Nat
  | DemoPos.P1, Piece.king, _ => 1
  | DemoPos.P1, _, _ => 0
  | _, Piece.king, _ => 1
  | _, Piece.queen, Side.black => 1
  | _, _, _ => 0

/-- The demo rules engine. -/
def demoRules : Rules DemoPos CMove where
  moves
    | DemoPos.P0 => [demoCap, demoQ1, demoQ2]
    | _ => []
  step
    | DemoPos.P0, m =>
        if m = demoCap then DemoPos.P1 else if m = demoQ1 then DemoPos.P2 else DemoPos.P3
    | p, _ => p
  gameOver
    | DemoPos.P0 => false
    | _ => true
  pieceCount := demoCount
  turn
    | DemoPos.P0 => Side.white
    | _ => Side.black
  pieceAt
    | DemoPos.P0, 25 => some (Piece.king, Side.white)
    | DemoPos.P0, 24 => some (Piece.queen, Side.black)
    | _, _ => none

/-
A model of the standard initial chess position at the depth the scenario
needs: the 20 legal first moves, all materially neutral, leading to a
single representative successor with Black to move.
-/

/-- Start of game and the (materially identical) state after any first
move. -/
inductive SPos where
  | start
  | after
deriving DecidableEq, Fintype

/-- The 20 legal first moves of chess (16 pawn moves then 4 knight
moves), as (origin, destination) squares. -/
def stdMoves : List CMove :=
  [⟨8, 16, none⟩, ⟨8, 24, none⟩, ⟨9, 17, none⟩, ⟨9, 25, none⟩,
   ⟨10, 18, none⟩, ⟨10, 26, none⟩, ⟨11, 19, none⟩, ⟨11, 27, none⟩,
   ⟨12, 20, none⟩, ⟨12, 28, none⟩, ⟨13, 21, none⟩, ⟨13, 29, none⟩,
   ⟨14, 22, none⟩, ⟨14, 30, none⟩, ⟨15, 23, none⟩, ⟨15, 31, none⟩,
   ⟨1, 16, none⟩, ⟨1, 18, none⟩, ⟨6, 21, none⟩, ⟨6, 23, none⟩]

/-- The full starting material of one side. -/
def stdCount : Piece → Nat
  | Piece.pawn => 8
  | Piece.knight => 2
  | Piece.bishop => 2
  | Piece.rook => 2
  | Piece.queen => 1
  | Piece.king => 1

/-- A rules engine exposing the standard initial position with White to
move; no first move captures, so material is unchanged after each. -/
def stdRules : Rules SPos CMove where
  moves
    | SPos.start => stdMoves
    | SPos.after => []
  step
    | _, _ => SPos.after
  gameOver := fun _ => false
  pieceCount := fun _ k _ => stdCount k
  turn
    | SPos.start => Side.white
    | SPos.after => Side.black
  pieceAt := fun _ _ => none

/-
A promotion scenario: a White pawn on a7 (square 48) whose only moves
reach a8 (square 56) and therefore all carry a promotion piece.
-/

/-- Before and after the promotion attempt. -/
inductive PPos where
  | p0
  | p1
deriving DecidableEq, Fintype

/-- A rules engine for the promotion scenario. -/
def promoRules : Rules PPos CMove where
  moves
    | PPos.p0 =>
        [⟨48, 56, some Piece.queen⟩, ⟨48, 56, some Piece.rook⟩,
         ⟨48, 56, some Piece.bishop⟩, ⟨48, 56, some Piece.knight⟩]
    | PPos.p1 => []
  step
    | _, _ => PPos.p1
  gameOver
    | PPos.p0 => false
    | PPos.p1 => true
  pieceCount := fun _ k _ =>
    match k with
    | Piece.king => 1
    | Piece.pawn => 1
    | _ => 0
  turn
    | PPos.p0 => Side.white
    | PPos.p1 => Side.black
  pieceAt
    | PPos.p0, 48 => some (Piece.pawn, Side.white)
    | _, _ => none

/-
Frame lemmas: every search function returns the board it was given,
because every push is matched by exactly one pop, including on the
pruning exit of each loop.
-/

theorem maxLoop_snd {Pos M : Type} (R : Rules Pos M)
    (f : Board Pos → EInt → EInt → EInt × Board Pos)
    (hf : ∀ b' a c, (f b' a c).2 = b') :
    ∀ (ms : List M) (b : Board Pos) (alpha beta best : EInt),
      (maxLoop R f ms b alpha beta best).2 = b := by
  intro ms
  induction ms with
  | nil => intro b alpha beta best; rfl
  | cons m rest ih =>
      intro b alpha beta best
      simp only [maxLoop, hf, Board.pop_push]
      split <;> split <;> first | rfl | exact ih ..

theorem minLoop_snd {Pos M : Type} (R : Rules Pos M)
    (f : Board Pos → EInt → EInt → EInt × Board Pos)
    (hf : ∀ b' a c, (f b' a c).2 = b') :
    ∀ (ms : List M) (b : Board Pos) (alpha beta best : EInt),
      (minLoop R f ms b alpha beta best).2 = b := by
  intro ms
  induction ms with
  | nil => intro b alpha beta best; rfl
  | cons m rest ih =>
      intro b alpha beta best
      simp only [minLoop, hf, Board.pop_push]
      split <;> split <;> first | rfl | exact ih ..

theorem maxLoopNP_snd {Pos M : Type} (R : Rules Pos M)
    (f : Board Pos → EInt → EInt → EInt × Board Pos)
    (hf : ∀ b' a c, (f b' a c).2 = b') :
    ∀ (ms : List M) (b : Board Pos) (alpha beta best : EInt),
      (maxLoopNP R f ms b alpha beta best).2 = b := by
  intro ms
  induction ms with
  | nil => intro b alpha beta best; rfl
  | cons m rest ih =>
      intro b alpha beta best
      simp only [maxLoopNP, hf, Board.pop_push]
      exact ih ..

theorem minLoopNP_snd {Pos M : Type} (R : Rules Pos M)
    (f : Board Pos → EInt → EInt → EInt × Board Pos)
    (hf : ∀ b' a c, (f b' a c).2 = b') :
    ∀ (ms : List M) (b : Board Pos) (alpha beta best : EInt),
      (minLoopNP R f ms b alpha beta best).2 = b := by
  intro ms
  induction ms with
  | nil => intro b alpha beta best; rfl
  | cons m rest ih =>
      intro b alpha beta best
      simp only [minLoopNP, hf, Board.pop_push]
      exact ih ..

theorem minimax_snd {Pos M : Type} (R : Rules Pos M) :
    ∀ (d : Nat) (b : Board Pos) (alpha beta : EInt) (mx : Bool),
      (minimax R d b alpha beta mx).2 = b := by
  intro d
  induction d with
  | zero => intro b alpha beta mx; rfl
  | succ d ih =>
      intro b alpha beta mx
      simp only [minimax]
      split
      · rfl
      · split
        · exact maxLoop_snd R _ (fun b' a c => ih b' a c false) _ b alpha beta ⊥
        · exact minLoop_snd R _ (fun b' a c => ih b' a c true) _ b alpha beta ⊤

theorem minimaxNP_snd {Pos M : Type} (R : Rules Pos M) :
    ∀ (d : Nat) (b : Board Pos) (alpha beta : EInt) (mx : Bool),
      (minimaxNP R d b alpha beta mx).2 = b := by
  intro d
  induction d with
  | zero => intro b alpha beta mx; rfl
  | succ d ih =>
      intro b alpha beta mx
      simp only [minimaxNP]
      split
      · rfl
      · split
        · exact maxLoopNP_snd R _ (fun b' a c => ih b' a c false) _ b alpha beta ⊥
        · exact minLoopNP_snd R _ (fun b' a c => ih b' a c true) _ b alpha beta ⊤

theorem bestLoop_snd {Pos M : Type} (R : Rules Pos M)
    (f : Board Pos → EInt × Board Pos)
    (hf : ∀ b', (f b').2 = b') :
    ∀ (ms : List M) (b : Board Pos) (bm : Option M) (bv : EInt),
      (bestLoop R f ms b bm bv).2 = b := by
  intro ms
  induction ms with
  | nil => intro b bm bv; rfl
  | cons m rest ih =>
      intro b bm bv
      simp only [bestLoop, hf, Board.pop_push]
      split
      · exact ih ..
      · exact ih ..

theorem get_best_move_snd {Pos M : Type} (R : Rules Pos M) (b : Board Pos) (depth : Nat) :
    (get_best_move R b depth).2 = b :=
  bestLoop_snd R _ (fun b' => minimax_snd R (depth - 1) b' ⊥ ⊤ false) _ b none ⊥

theorem get_best_moveNP_snd {Pos M : Type} (R : Rules Pos M) (b : Board Pos) (depth : Nat) :
    (get_best_moveNP R b depth).2 = b :=
  bestLoop_snd R _ (fun b' => minimaxNP_snd R (depth - 1) b' ⊥ ⊤ false) _ b none ⊥

/-
Fold combinators describing the values computed by the non-pruning loops,
and their order-theoretic properties.
-/

/-- Left fold of `max` over the values of a move list, as computed by the
running maximum of the maximizing loop. -/
def foldMax {M : Type} (g : M → EInt) (t : EInt) : List M → EInt
  | [] => t
  | m :: rest => foldMax g (max t (g m)) rest

/-- Left fold of `min` over the values of a move list. -/
def foldMin {M : Type} (g : M → EInt) (t : EInt) : List M → EInt
  | [] => t
  | m :: rest => foldMin g (min t (g m)) rest

theorem ite_lt_right_max (a b : EInt) : (if a < b then b else a) = max a b := by
  rcases le_or_lt b a with h | h
  · simp [not_lt.mpr h, max_eq_left h]
  · simp [h, max_eq_right h.le]

theorem ite_lt_left_min (a b : EInt) : (if a < b then a else b) = min a b := by
  rcases le_or_lt b a with h | h
  · simp [not_lt.mpr h, min_eq_right h]
  · simp [h, min_eq_left h.le]

theorem foldMax_le_iff {M : Type} (g : M → EInt) :
    ∀ (ms : List M) (t c : EInt),
      foldMax g t ms ≤ c ↔ t ≤ c ∧ ∀ m ∈ ms, g m ≤ c := by
  intro ms
  induction ms with
  | nil => intro t c; simp [foldMax]
  | cons m rest ih =>
      intro t c
      simp [foldMax, ih, max_le_iff, and_assoc]

theorem self_le_foldMax {M : Type} (g : M → EInt) (ms : List M) (t : EInt) :
    t ≤ foldMax g t ms :=
  ((foldMax_le_iff g ms t (foldMax g t ms)).mp le_rfl).1

theorem elem_le_foldMax {M : Type} (g : M → EInt) (ms : List M) (t : EInt)
    (m : M) (hm : m ∈ ms) : g m ≤ foldMax g t ms :=
  ((foldMax_le_iff g ms t (foldMax g t ms)).mp le_rfl).2 m hm

theorem foldMax_eq_or {M : Type} (g : M → EInt) :
    ∀ (ms : List M) (t : EInt),
      foldMax g t ms = t ∨ ∃ m ∈ ms, foldMax g t ms = g m := by
  intro ms
  induction ms with
  | nil => intro t; exact Or.inl rfl
  | cons m rest ih =>
      intro t
      rcases ih (max t (g m)) with h | ⟨m', hm', hv⟩
      · rcases max_choice t (g m) with hc | hc
        · exact Or.inl (by rw [foldMax, h, hc])
        · exact Or.inr ⟨m, List.mem_cons_self m rest, by rw [foldMax, h, hc]⟩
      · exact Or.inr ⟨m', List.mem_cons_of_mem m hm', hv⟩

theorem le_foldMin_iff {M : Type} (g : M → EInt) :
    ∀ (ms : List M) (t c : EInt),
      c ≤ foldMin g t ms ↔ c ≤ t ∧ ∀ m ∈ ms, c ≤ g m := by
  intro ms
  induction ms with
  | nil => intro t c; simp [foldMin]
  | cons m rest ih =>
      intro t c
      simp [foldMin, ih, le_min_iff, and_assoc]

theorem foldMin_le_self {M : Type} (g : M → EInt) (ms : List M) (t : EInt) :
    foldMin g t ms ≤ t :=
  ((le_foldMin_iff g ms t (foldMin g t ms)).mp le_rfl).1

theorem foldMin_le_elem {M : Type} (g : M → EInt) (ms : List M) (t : EInt)
    (m : M) (hm : m ∈ ms) : foldMin g t ms ≤ g m :=
  ((le_foldMin_iff g ms t (foldMin g t ms)).mp le_rfl).2 m hm

theorem foldMin_eq_or {M : Type} (g : M → EInt) :
    ∀ (ms : List M) (t : EInt),
      foldMin g t ms = t ∨ ∃ m ∈ ms, foldMin g t ms = g m := by
  intro ms
  induction ms with
  | nil => intro t; exact Or.inl rfl
  | cons m rest ih =>
      intro t
      rcases ih (min t (g m)) with h | ⟨m', hm', hv⟩
      · rcases min_choice t (g m) with hc | hc
        · exact Or.inl (by rw [foldMin, h, hc])
        · exact Or.inr ⟨m, List.mem_cons_self m rest, by rw [foldMin, h, hc]⟩
      · exact Or.inr ⟨m', List.mem_cons_of_mem m hm', hv⟩

/-
Values of the non-pruning loops: the running maximum/minimum folds over
the child values, and the window arguments are inert.
-/

theorem maxLoopNP_fst {Pos M : Type} (R : Rules Pos M)
    (f : Board Pos → EInt → EInt → EInt × Board Pos) (g : M → EInt) (b : Board Pos)
    (hf2 : ∀ b' a c, (f b' a c).2 = b')
    (hf1 : ∀ (m : M) (a c : EInt), (f (Board.push R b m) a c).1 = g m) :
    ∀ (ms : List M) (alpha beta best : EInt),
      (maxLoopNP R f ms b alpha beta best).1 = foldMax g best ms := by
  intro ms
  induction ms with
  | nil => intro alpha beta best; rfl
  | cons m rest ih =>
      intro alpha beta best
      simp only [maxLoopNP, hf2, Board.pop_push, hf1, foldMax]
      rw [ih, ite_lt_right_max]

theorem minLoopNP_fst {Pos M : Type} (R : Rules Pos M)
    (f : Board Pos → EInt → EInt → EInt × Board Pos) (g : M → EInt) (b : Board Pos)
    (hf2 : ∀ b' a c, (f b' a c).2 = b')
    (hf1 : ∀ (m : M) (a c : EInt), (f (Board.push R b m) a c).1 = g m) :
    ∀ (ms : List M) (alpha beta best : EInt),
      (minLoopNP R f ms b alpha beta best).1 = foldMin g best ms := by
  intro ms
  induction ms with
  | nil => intro alpha beta best; rfl
  | cons m rest ih =>
      intro alpha beta best
      simp only [minLoopNP, hf2, Board.pop_push, hf1, foldMin]
      rw [ih, ite_lt_left_min, min_comm]

theorem minimaxNP_fst_window {Pos M : Type} (R : Rules Pos M) :
    ∀ (d : Nat) (b : Board Pos) (a c a' c' : EInt) (mx : Bool),
      (minimaxNP R d b a c mx).1 = (minimaxNP R d b a' c' mx).1 := by
  intro d
  induction d with
  | zero => intro b a c a' c' mx; rfl
  | succ d ih =>
      intro b a c a' c' mx
      simp only [minimaxNP]
      split
      · rfl
      · split
        · rw [maxLoopNP_fst R _ (fun m => (minimaxNP R d (Board.push R b m) ⊥ ⊤ false).1) b
            (fun b' x y => minimaxNP_snd R d b' x y false)
            (fun m x y => ih (Board.push R b m) x y ⊥ ⊤ false),
            maxLoopNP_fst R _ (fun m => (minimaxNP R d (Board.push R b m) ⊥ ⊤ false).1) b
            (fun b' x y => minimaxNP_snd R d b' x y false)
            (fun m x y => ih (Board.push R b m) x y ⊥ ⊤ false)]
        · rw [minLoopNP_fst R _ (fun m => (minimaxNP R d (Board.push R b m) ⊥ ⊤ true).1) b
            (fun b' x y => minimaxNP_snd R d b' x y true)
            (fun m x y => ih (Board.push R b m) x y ⊥ ⊤ true),
            minLoopNP_fst R _ (fun m => (minimaxNP R d (Board.push R b m) ⊥ ⊤ true).1) b
            (fun b' x y => minimaxNP_snd R d b' x y true)
            (fun m x y => ih (Board.push R b m) x y ⊥ ⊤ true)]

theorem V_zero {Pos M : Type} (R : Rules Pos M) (b : Board Pos) (mx : Bool) :
    V R 0 b mx = EInt.ofInt (evaluate_board R b.pos) := rfl

theorem V_gameOver {Pos M : Type} (R : Rules Pos M) (d : Nat) (b : Board Pos) (mx : Bool)
    (h : R.gameOver b.pos = true) :
    V R (d + 1) b mx = EInt.ofInt (evaluate_board R b.pos) := by
  simp [V, minimaxNP, h]

theorem V_succ_max {Pos M : Type} (R : Rules Pos M) (d : Nat) (b : Board Pos)
    (h : R.gameOver b.pos = false) :
    V R (d + 1) b true
      = foldMax (fun m => V R d (Board.push R b m) false) ⊥ (R.moves b.pos) := by
  simp only [V, minimaxNP, h]
  exact maxLoopNP_fst R _ (fun m => V R d (Board.push R b m) false) b
    (fun b' x y => minimaxNP_snd R d b' x y false)
    (fun m x y => minimaxNP_fst_window R d (Board.push R b m) x y ⊥ ⊤ false)
    (R.moves b.pos) ⊥ ⊤ ⊥

theorem V_succ_min {Pos M : Type} (R : Rules Pos M) (d : Nat) (b : Board Pos)
    (h : R.gameOver b.pos = false) :
    V R (d + 1) b false
      = foldMin (fun m => V R d (Board.push R b m) true) ⊤ (R.moves b.pos) := by
  simp only [V, minimaxNP, h]
  exact minLoopNP_fst R _ (fun m => V R d (Board.push R b m) true) b
    (fun b' x y => minimaxNP_snd R d b' x y true)
    (fun m x y => minimaxNP_fst_window R d (Board.push R b m) x y ⊥ ⊤ true)
    (R.moves b.pos) ⊥ ⊤ ⊤

/-
Fail-soft alpha-beta correctness (Knuth-Moore): the pruning loops compute
a value r that coincides with the exhaustive value whenever r lies
strictly inside the original window, is an upper bound on the exhaustive
value when it fails low, and a lower bound when it fails high.
-/

theorem kmMaxLoop {Pos M : Type} (R : Rules Pos M)
    (f : Board Pos → EInt → EInt → EInt × Board Pos) (g : M → EInt) (b : Board Pos)
    (hf2 : ∀ b' a c, (f b' a c).2 = b')
    (hfg : ∀ (m : M) (a c : EInt), a < c →
      (((f (Board.push R b m) a c).1 ≤ a → g m ≤ (f (Board.push R b m) a c).1) ∧
       (c ≤ (f (Board.push R b m) a c).1 → (f (Board.push R b m) a c).1 ≤ g m) ∧
       (a < (f (Board.push R b m) a c).1 → (f (Board.push R b m) a c).1 < c →
         (f (Board.push R b m) a c).1 = g m))) :
    ∀ (ms : List M) (alpha0 alpha beta best t : EInt),
      alpha = max alpha0 best → t ≤ best → (alpha0 < best → best = t) → alpha < beta →
      best ≤ (maxLoop R f ms b alpha beta best).1 ∧
      ((maxLoop R f ms b alpha beta best).1 ≤ alpha0 →
        foldMax g t ms ≤ (maxLoop R f ms b alpha beta best).1) ∧
      (beta ≤ (maxLoop R f ms b alpha beta best).1 →
        (maxLoop R f ms b alpha beta best).1 ≤ foldMax g t ms) ∧
      (alpha0 < (maxLoop R f ms b alpha beta best).1 →
        (maxLoop R f ms b alpha beta best).1 < beta →
        (maxLoop R f ms b alpha beta best).1 = foldMax g t ms) := by
  intro ms
  induction ms with
  | nil =>
      intro alpha0 alpha beta best t ha ht htb hab
      have hba : best ≤ alpha := by rw [ha]; exact le_max_right alpha0 best
      simp only [maxLoop, foldMax]
      refine ⟨le_rfl, fun _ => ht, fun hb => absurd (hb.trans hba) (not_le.mpr hab),
        fun h0 _ => htb h0⟩
  | cons m rest ih =>
      intro alpha0 alpha beta best t ha ht htb hab
      have hs3 := hfg m alpha beta hab
      have ha0 : alpha0 ≤ alpha := by rw [ha]; exact le_max_left alpha0 best
      have hba : best ≤ alpha := by rw [ha]; exact le_max_right alpha0 best
      simp only [maxLoop, hf2, Board.pop_push, foldMax]
      set s := (f (Board.push R b m) alpha beta).1 with hsdef
      rw [ite_lt_right_max best s, ite_lt_right_max alpha s]
      by_cases hcut : beta ≤ max alpha s
      · rw [if_pos hcut]
        have has : alpha < s := by
          by_contra hle
          push_neg at hle
          rw [max_eq_left hle] at hcut
          exact absurd hcut (not_le.mpr hab)
        have hbs : beta ≤ s := by rwa [max_eq_right has.le] at hcut
        have hsg : s ≤ g m := hs3.2.1 hbs
        have hbests : best < s := lt_of_le_of_lt hba has
        have hr : max best s = s := max_eq_right hbests.le
        rw [hr]
        refine ⟨hbests.le, ?_, ?_, ?_⟩
        · intro hcontra
          exact absurd hcontra (not_le.mpr (lt_of_le_of_lt ha0 has))
        · intro _
          exact hsg.trans ((le_max_right t (g m)).trans (self_le_foldMax g rest (max t (g m))))
        · intro _ hlt
          exact absurd hlt (not_lt.mpr hbs)
      · rw [if_neg hcut]
        push_neg at hcut
        have ha1 : max alpha s = max alpha0 (max best s) := by
          rw [ha]; exact max_assoc alpha0 best s
        have hgm : g m ≤ max best s := by
          rcases le_or_lt s alpha with hsa | hsa
          · exact (hs3.1 hsa).trans ((le_max_right best s))
          · have hsb : s < beta := lt_of_le_of_lt (le_max_right alpha s) hcut
            rw [← hs3.2.2 hsa hsb]
            exact le_max_right best s
        have ht1 : max t (g m) ≤ max best s := max_le (ht.trans (le_max_left best s)) hgm
        have htb1 : alpha0 < max best s → max best s = max t (g m) := by
          intro h0
          rcases le_or_lt s best with hsb | hbs
          · rw [max_eq_left hsb] at h0 hgm ⊢
            have hbt := htb h0
            rw [← hbt]
            exact (max_eq_left hgm).symm
          · rw [max_eq_right hbs.le] at h0 ⊢
            rcases le_or_lt s alpha with hsa | hsa
            · rw [ha] at hsa
              rcases max_choice alpha0 best with hc | hc <;> rw [hc] at hsa
              · exact absurd hsa (not_le.mpr h0)
              · exact absurd hsa (not_le.mpr hbs)
            · have hsb : s < beta := lt_of_le_of_lt (le_max_right alpha s) hcut
              have hsgm := hs3.2.2 hsa hsb
              have hts : t ≤ s := ht.trans hbs.le
              rw [← hsgm]
              exact (max_eq_right hts).symm
        have hres := ih alpha0 (max alpha s) beta (max best s) (max t (g m)) ha1 ht1 htb1 hcut
        exact ⟨(le_max_left best s).trans hres.1, hres.2.1, hres.2.2.1, hres.2.2.2⟩

theorem kmMinLoop {Pos M : Type} (R : Rules Pos M)
    (f : Board Pos → EInt → EInt → EInt × Board Pos) (g : M → EInt) (b : Board Pos)
    (hf2 : ∀ b' a c, (f b' a c).2 = b')
    (hfg : ∀ (m : M) (a c : EInt), a < c →
      (((f (Board.push R b m) a c).1 ≤ a → g m ≤ (f (Board.push R b m) a c).1) ∧
       (c ≤ (f (Board.push R b m) a c).1 → (f (Board.push R b m) a c).1 ≤ g m) ∧
       (a < (f (Board.push R b m) a c).1 → (f (Board.push R b m) a c).1 < c →
         (f (Board.push R b m) a c).1 = g m))) :
    ∀ (ms : List M) (beta0 alpha beta best t : EInt),
      beta = min beta0 best → best ≤ t → (best < beta0 → best = t) → alpha < beta →
      (minLoop R f ms b alpha beta best).1 ≤ best ∧
      (beta0 ≤ (minLoop R f ms b alpha beta best).1 →
        (minLoop R f ms b alpha beta best).1 ≤ foldMin g t ms) ∧
      ((minLoop R f ms b alpha beta best).1 ≤ alpha →
        foldMin g t ms ≤ (minLoop R f ms b alpha beta best).1) ∧
      (alpha < (minLoop R f ms b alpha beta best).1 →
        (minLoop R f ms b alpha beta best).1 < beta0 →
        (minLoop R f ms b alpha beta best).1 = foldMin g t ms) := by
  intro ms
  induction ms with
  | nil =>
      intro beta0 alpha beta best t hb ht htb hab
      have hbb : beta ≤ best := by rw [hb]; exact min_le_right beta0 best
      simp only [minLoop, foldMin]
      refine ⟨le_rfl, fun _ => ht, fun hcontra => absurd (hbb.trans hcontra) (not_le.mpr hab),
        fun _ h0 => htb h0⟩
  | cons m rest ih =>
      intro beta0 alpha beta best t hb ht htb hab
      have hs3 := hfg m alpha beta hab
      have hb0 : beta ≤ beta0 := by rw [hb]; exact min_le_left beta0 best
      have hbb : beta ≤ best := by rw [hb]; exact min_le_right beta0 best
      simp only [minLoop, hf2, Board.pop_push, foldMin]
      set s := (f (Board.push R b m) alpha beta).1 with hsdef
      rw [ite_lt_left_min s best, ite_lt_left_min s beta]
      by_cases hcut : min s beta ≤ alpha
      · rw [if_pos hcut]
        have hsb : s < beta := by
          by_contra hle
          push_neg at hle
          rw [min_eq_right hle] at hcut
          exact absurd hcut (not_le.mpr hab)
        have hsa : s ≤ alpha := by rwa [min_eq_left hsb.le] at hcut
        have hgs : g m ≤ s := hs3.1 hsa
        have hsbest : s < best := lt_of_le_of_lt hsa (lt_of_lt_of_le hab hbb)
        have hr : min s best = s := min_eq_left hsbest.le
        rw [hr]
        refine ⟨hsbest.le, ?_, ?_, ?_⟩
        · intro hcontra
          exact absurd hcontra (not_le.mpr (lt_of_le_of_lt hsa (lt_of_lt_of_le hab hb0)))
        · intro _
          exact ((foldMin_le_self g rest (min t (g m))).trans (min_le_right t (g m))).trans hgs
        · intro hlt _
          exact absurd hlt (not_lt.mpr hsa)
      · rw [if_neg hcut]
        push_neg at hcut
        have hb1 : min s beta = min beta0 (min s best) := by
          rw [hb]; exact min_left_comm s beta0 best
        have hgm : min s best ≤ g m := by
          rcases le_or_lt beta s with hbs | hsb
          · exact (min_le_left s best).trans (hs3.2.1 hbs)
          · have hsa : alpha < s := lt_of_lt_of_le hcut (min_le_left s beta)
            rw [← hs3.2.2 hsa hsb]
            exact min_le_left s best
        have ht1 : min s best ≤ min t (g m) :=
          le_min ((min_le_right s best).trans ht) hgm
        have htb1 : min s best < beta0 → min s best = min t (g m) := by
          intro h0
          rcases le_or_lt best s with hbs | hsb
          · rw [min_eq_right hbs] at h0 hgm ⊢
            have hbt := htb h0
            rw [← hbt]
            exact (min_eq_left hgm).symm
          · rw [min_eq_left hsb.le] at h0 ⊢
            rcases le_or_lt beta s with hbeta | hbeta
            · rw [hb] at hbeta
              rcases min_choice beta0 best with hc | hc <;> rw [hc] at hbeta
              · exact absurd hbeta (not_le.mpr h0)
              · exact absurd hbeta (not_le.mpr hsb)
            · have hsa : alpha < s := lt_of_lt_of_le hcut (min_le_left s beta)
              have hsgm := hs3.2.2 hsa hbeta
              have hst : s ≤ t := (hsb.le).trans ht
              rw [← hsgm]
              exact (min_eq_right hst).symm
        have hres := ih beta0 alpha (min s beta) (min s best) (min t (g m)) hb1 ht1 htb1 hcut
        exact ⟨hres.1.trans (min_le_right s best), hres.2.1, hres.2.2.1, hres.2.2.2⟩

theorem minimax_succ_max {Pos M : Type} (R : Rules Pos M) (d : Nat) (b : Board Pos)
    (alpha beta : EInt) (h : R.gameOver b.pos = false) :
    minimax R (d + 1) b alpha beta true
      = maxLoop R (fun b' a c => minimax R d b' a c false) (R.moves b.pos) b alpha beta ⊥ := by
  simp [minimax, h]

theorem minimax_succ_min {Pos M : Type} (R : Rules Pos M) (d : Nat) (b : Board Pos)
    (alpha beta : EInt) (h : R.gameOver b.pos = false) :
    minimax R (d + 1) b alpha beta false
      = minLoop R (fun b' a c => minimax R d b' a c true) (R.moves b.pos) b alpha beta ⊤ := by
  simp [minimax, h]

/-- The Knuth-Moore theorem for the program's fail-soft alpha-beta search:
relative to any window alpha < beta, the pruning value fails soft against
the exhaustive minimax value. -/
theorem km {Pos M : Type} (R : Rules Pos M) :
    ∀ (d : Nat) (mx : Bool) (b : Board Pos) (alpha beta : EInt), alpha < beta →
      ((minimax R d b alpha beta mx).1 ≤ alpha →
        V R d b mx ≤ (minimax R d b alpha beta mx).1) ∧
      (beta ≤ (minimax R d b alpha beta mx).1 →
        (minimax R d b alpha beta mx).1 ≤ V R d b mx) ∧
      (alpha < (minimax R d b alpha beta mx).1 →
        (minimax R d b alpha beta mx).1 < beta →
        (minimax R d b alpha beta mx).1 = V R d b mx) := by
  intro d
  induction d with
  | zero =>
      intro mx b alpha beta hab
      exact ⟨fun _ => le_rfl, fun _ => le_rfl, fun _ _ => rfl⟩
  | succ d ih =>
      intro mx b alpha beta hab
      by_cases hgo : R.gameOver b.pos = true
      · have h1 : minimax R (d + 1) b alpha beta mx
            = (EInt.ofInt (evaluate_board R b.pos), b) := by
          simp [minimax, hgo]
        rw [h1, V_gameOver R d b mx hgo]
        exact ⟨fun _ => le_rfl, fun _ => le_rfl, fun _ _ => rfl⟩
      · have hgo' : R.gameOver b.pos = false := by
          simpa using hgo
        cases mx
        · rw [minimax_succ_min R d b alpha beta hgo', V_succ_min R d b hgo']
          have h := kmMinLoop R _ (fun m => V R d (Board.push R b m) true) b
            (fun b' a c => minimax_snd R d b' a c true)
            (fun m a c hac => ih true (Board.push R b m) a c hac)
            (R.moves b.pos) beta alpha beta ⊤ ⊤ (min_eq_left le_top).symm le_rfl
            (fun hc => absurd hc not_top_lt) hab
          exact ⟨h.2.2.1, h.2.1, h.2.2.2⟩
        · rw [minimax_succ_max R d b alpha beta hgo', V_succ_max R d b hgo']
          have h := kmMaxLoop R _ (fun m => V R d (Board.push R b m) false) b
            (fun b' a c => minimax_snd R d b' a c false)
            (fun m a c hac => ih false (Board.push R b m) a c hac)
            (R.moves b.pos) alpha alpha beta ⊥ ⊥ (max_eq_left bot_le).symm le_rfl
            (fun hc => absurd hc not_lt_bot) hab
          exact ⟨h.2.1, h.2.2.1, h.2.2.2⟩

/-- Called over the full window, the pruning search computes exactly the
exhaustive minimax value. -/
theorem minimax_full_window {Pos M : Type} (R : Rules Pos M) (d : Nat) (b : Board Pos)
    (mx : Bool) : (minimax R d b ⊥ ⊤ mx).1 = V R d b mx := by
  have h := km R d mx b ⊥ ⊤ (by decide)
  by_cases hb : (minimax R d b ⊥ ⊤ mx).1 = ⊥
  · have hv := h.1 (le_of_eq hb)
    have hvb : V R d b mx = ⊥ := le_bot_iff.mp (hb ▸ hv)
    rw [hb, hvb]
  · by_cases htp : (minimax R d b ⊥ ⊤ mx).1 = ⊤
    · have hv := h.2.1 htp.ge
      have hvt : V R d b mx = ⊤ := top_le_iff.mp (htp ▸ hv)
      rw [htp, hvt]
    · exact h.2.2 (bot_lt_iff_ne_bot.mpr hb) (lt_top_iff_ne_top.mpr htp)

theorem minimax_eq_NP_full {Pos M : Type} (R : Rules Pos M) (d : Nat) (b : Board Pos) :
    minimax R d b ⊥ ⊤ false = minimaxNP R d b ⊥ ⊤ false :=
  Prod.ext (minimax_full_window R d b false)
    (by rw [minimax_snd, minimaxNP_snd])

/-- Under a sane rules engine the exhaustive minimax value is always a
finite integer (neither sentinel survives). -/
theorem V_finite {Pos M : Type} (R : Rules Pos M) (hOk : R.Ok) :
    ∀ (d : Nat) (b : Board Pos) (mx : Bool), V R d b mx ≠ ⊥ ∧ V R d b mx ≠ ⊤ := by
  intro d
  induction d with
  | zero =>
      intro b mx
      constructor
      · simp [V_zero, EInt.ofInt]
      · simp only [V_zero, EInt.ofInt]
        intro hcontra
        exact absurd (WithBot.coe_eq_coe.mp hcontra) (WithTop.coe_ne_top)
  | succ d ih =>
      intro b mx
      by_cases hgo : R.gameOver b.pos = true
      · rw [V_gameOver R d b mx hgo]
        constructor
        · simp [EInt.ofInt]
        · simp only [EInt.ofInt]
          intro hcontra
          exact absurd (WithBot.coe_eq_coe.mp hcontra) (WithTop.coe_ne_top)
      · have hgo' : R.gameOver b.pos = false := by simpa using hgo
        have hms : R.moves b.pos ≠ [] := by
          intro hnil
          exact hgo (hOk b.pos hnil)
        obtain ⟨m0, rest, hcons⟩ := List.exists_cons_of_ne_nil hms
        cases mx
        · rw [V_succ_min R d b hgo', hcons]
          constructor
          · rcases foldMin_eq_or (fun m => V R d (Board.push R b m) true) (m0 :: rest) ⊤
              with h | ⟨m', _, h⟩
            · rw [h]; exact top_ne_bot
            · rw [h]; exact (ih (Board.push R b m') true).1
          · intro hcontra
            have hle := foldMin_le_elem (fun m => V R d (Board.push R b m) true)
              (m0 :: rest) ⊤ m0 (List.mem_cons_self m0 rest)
            rw [hcontra] at hle
            exact (ih (Board.push R b m0) true).2 (top_le_iff.mp hle)
        · rw [V_succ_max R d b hgo', hcons]
          constructor
          · intro hcontra
            have hle := elem_le_foldMax (fun m => V R d (Board.push R b m) false)
              (m0 :: rest) ⊥ m0 (List.mem_cons_self m0 rest)
            rw [hcontra] at hle
            exact (ih (Board.push R b m0) false).1 (le_bot_iff.mp hle)
          · rcases foldMax_eq_or (fun m => V R d (Board.push R b m) false) (m0 :: rest) ⊥
              with h | ⟨m', _, h⟩
            · rw [h]; exact bot_ne_top
            · rw [h]; exact (ih (Board.push R b m') false).2

/-
Properties of the root move loop: the reported move comes from the list,
and it is the first move attaining the maximum child value.
-/

theorem bestLoop_mem {Pos M : Type} (R : Rules Pos M)
    (f : Board Pos → EInt × Board Pos) :
    ∀ (ms : List M) (b : Board Pos) (bm : Option M) (bv : EInt) (m : M),
      (bestLoop R f ms b bm bv).1 = some m → m ∈ ms ∨ bm = some m := by
  intro ms
  induction ms with
  | nil => intro b bm bv m h; exact Or.inr h
  | cons m0 rest ih =>
      intro b bm bv m h
      simp only [bestLoop] at h
      by_cases hlt : bv < (f (Board.push R b m0)).1
      · rw [if_pos hlt] at h
        rcases ih _ _ _ m h with hm | hm
        · exact Or.inl (List.mem_cons_of_mem m0 hm)
        · exact Or.inl (Option.some_inj.mp hm ▸ List.mem_cons_self m0 rest)
      · rw [if_neg hlt] at h
        rcases ih _ _ _ m h with hm | hm
        · exact Or.inl (List.mem_cons_of_mem m0 hm)
        · exact Or.inr hm

theorem bestLoop_argmax {Pos M : Type} (R : Rules Pos M)
    (f : Board Pos → EInt × Board Pos) (b : Board Pos)
    (hfr : ∀ b', (f b').2 = b')
    (hne : ∀ m : M, (f (Board.push R b m)).1 ≠ ⊥) :
    ∀ (ms : List M) (bm : Option M) (bv : EInt) (pre : List M),
      ((bm = none ∧ bv = ⊥ ∧ pre = []) ∨
       (∃ m0 l1 l2, bm = some m0 ∧ pre = l1 ++ m0 :: l2 ∧ bv = (f (Board.push R b m0)).1 ∧
         (∀ m' ∈ l1, (f (Board.push R b m')).1 < bv) ∧
         (∀ m' ∈ l2, (f (Board.push R b m')).1 ≤ bv))) →
      ∀ m, (bestLoop R f ms b bm bv).1 = some m →
      ∃ l1 l2, pre ++ ms = l1 ++ m :: l2 ∧
        (∀ m' ∈ l1, (f (Board.push R b m')).1 < (f (Board.push R b m)).1) ∧
        (∀ m' ∈ l2, (f (Board.push R b m')).1 ≤ (f (Board.push R b m)).1) := by
  intro ms
  induction ms with
  | nil =>
      intro bm bv pre hinv m h
      simp only [bestLoop] at h
      rcases hinv with ⟨hbm, _, _⟩ | ⟨m0, l1, l2, hbm, hpre, hbv, h1, h2⟩
      · rw [hbm] at h
        exact absurd h (by simp)
      · rw [hbm] at h
        have hm0 : m0 = m := Option.some_inj.mp h
        subst hm0
        refine ⟨l1, l2, by simpa using hpre, ?_, ?_⟩
        · intro m' hm'
          rw [← hbv]
          exact h1 m' hm'
        · intro m' hm'
          rw [← hbv]
          exact h2 m' hm'
  | cons m1 rest ih =>
      intro bm bv pre hinv m h
      simp only [bestLoop, hfr, Board.pop_push] at h
      have hassoc : pre ++ m1 :: rest = (pre ++ [m1]) ++ rest := by
        simp
      by_cases hlt : bv < (f (Board.push R b m1)).1
      · rw [if_pos hlt] at h
        have hpre1 : ∀ m' ∈ pre, (f (Board.push R b m')).1 < (f (Board.push R b m1)).1 := by
          rcases hinv with ⟨_, hbv, hpre⟩ | ⟨m0, l1, l2, _, hpre, hbv, h1, h2⟩
          · rw [hpre]
            intro m' hm'
            exact absurd hm' (List.not_mem_nil m')
          · rw [hpre]
            intro m' hm'
            rcases List.mem_append.mp hm' with hx | hx
            · exact lt_trans (hbv ▸ h1 m' hx) hlt
            · rcases List.mem_cons.mp hx with hx0 | hx0
              · rw [hx0, ← hbv]
                exact hlt
              · exact lt_of_le_of_lt (hbv ▸ h2 m' hx0) hlt
        have hres := ih (some m1) (f (Board.push R b m1)).1 (pre ++ [m1])
          (Or.inr ⟨m1, pre, [], rfl, by simp, rfl, hpre1,
            fun m' hm' => absurd hm' (List.not_mem_nil m')⟩) m h
        rw [hassoc]
        exact hres
      · rw [if_neg hlt] at h
        push_neg at hlt
        rcases hinv with ⟨hbm, hbv, _⟩ | ⟨m0, l1, l2, hbm, hpre, hbv, h1, h2⟩
        · rw [hbv] at hlt
          exact absurd (le_bot_iff.mp hlt) (hne m1)
        · have h2' : ∀ m' ∈ l2 ++ [m1], (f (Board.push R b m')).1 ≤ bv := by
            intro m' hm'
            rcases List.mem_append.mp hm' with hx | hx
            · exact h2 m' hx
            · rcases List.mem_cons.mp hx with hx0 | hx0
              · rw [hx0]
                exact hlt
              · exact absurd hx0 (List.not_mem_nil m')
          have hres := ih bm bv (pre ++ [m1])
            (Or.inr ⟨m0, l1, l2 ++ [m1], hbm, by rw [hpre]; simp, hbv, h1, h2'⟩) m h
          rw [hassoc]
          exact hres

/-
Session-loop lemmas.
-/

/-- A click on an illegal destination while an origin is pending applies
no move and clears the pending origin. -/
theorem procEvents_click_illegal {Pos : Type} (R : Rules Pos CMove) (st : MainState Pos)
    (orig sq : Nat) (hsel : st.selected = some orig)
    (hturn : R.turn st.board.pos = player_color)
    (hmove : CMove.mk orig sq none ∉ R.moves st.board.pos) :
    procEvents R [Event.click sq] st = { st with selected := none } := by
  simp only [procEvents, hsel, if_pos hturn, if_neg hmove]

/-- While it is not the human's turn, event processing never touches the
board or the pending origin. -/
theorem procEvents_not_player {Pos : Type} (R : Rules Pos CMove) :
    ∀ (evs : List Event) (st : MainState Pos),
      R.turn st.board.pos ≠ player_color →
      (procEvents R evs st).board = st.board ∧
      (procEvents R evs st).selected = st.selected := by
  intro evs
  induction evs with
  | nil => intro st _; exact ⟨rfl, rfl⟩
  | cons e rest ih =>
      intro st h
      cases e with
      | quit => exact ⟨rfl, rfl⟩
      | click sq =>
          simp only [procEvents, if_neg h]
          exact ih st h

theorem aiPhase_gameOver {Pos : Type} (R : Rules Pos CMove) (st : MainState Pos)
    (h : R.gameOver st.board.pos = true) : aiPhase R st = (st, false) := by
  simp [aiPhase, h]

theorem endPhase_gameOver {Pos : Type} (R : Rules Pos CMove) (st : MainState Pos)
    (h : R.gameOver st.board.pos = true) : endPhase R st = { st with running := false } := by
  simp [endPhase, h]

/-
The claims.
-/

/-- C1: the claim "for every position in which exactly one legal move
captures an undefended enemy queen and all other legal moves have neutral
material effect, get_best_move(position, 1) returns that capturing move"
fails on the code.  In the position with White king b4, Black king h8 and
an undefended Black queen a4 (White to move; legal moves Kxa4, Kc5, Kc3),
the unique queen capture is demoCap, both other moves are materially
neutral, yet the depth-1 search returns the neutral move demoQ1: at depth
1 the root maximizes evaluate_board of the child position, which is
scored relative to the side to move, i.e. the opponent, so the capture
(child value 0) loses to a neutral move (child value 900). -/
theorem C1_depth1_avoids_free_queen_capture :
    demoRules.moves DemoPos.P0 = [demoCap, demoQ1, demoQ2] ∧
    demoRules.pieceCount DemoPos.P0 Piece.queen Side.black = 1 ∧
    demoRules.pieceCount (demoRules.step DemoPos.P0 demoCap) Piece.queen Side.black = 0 ∧
    (∀ k s, demoRules.pieceCount (demoRules.step DemoPos.P0 demoQ1) k s
        = demoRules.pieceCount DemoPos.P0 k s) ∧
    (∀ k s, demoRules.pieceCount (demoRules.step DemoPos.P0 demoQ2) k s
        = demoRules.pieceCount DemoPos.P0 k s) ∧
    (get_best_move demoRules ⟨DemoPos.P0, []⟩ 1).1 = some demoQ1 ∧
    demoQ1 ≠ demoCap := by
  decide

/-- C2: evaluate_board is the fixed-table material sum from White's side
negated when Black is to move (hence always the material advantage of the
side to move), and evaluating the same physical placement with the side
to move flipped yields the negation. -/
theorem C2_eval_is_signed_material (Pos M : Type) (R : Rules Pos M) (p p' : Pos)
    (hc : ∀ k s, R.pieceCount p' k s = R.pieceCount p k s)
    (hne : R.turn p' ≠ R.turn p) :
    (evaluate_board R p
        = if R.turn p = Side.white then specMaterial R p else -specMaterial R p) ∧
    evaluate_board R p' = -evaluate_board R p := by
  constructor
  · simp only [evaluate_board, specMaterial, PIECE_VALUES, List.foldl]
    split <;> ring
  · cases hp : R.turn p <;> cases hp' : R.turn p'
    · exact absurd (hp'.trans hp.symm) hne
    · simp [evaluate_board, PIECE_VALUES, hp, hp', hc]
    · simp [evaluate_board, PIECE_VALUES, hp, hp', hc]
    · exact absurd (hp'.trans hp.symm) hne

/-- C2 witness: the demo position with the Black queen alive evaluated
with Black to move is the negation of the same material evaluated with
White to move. -/
theorem C2_witness :
    evaluate_board demoRules DemoPos.P2 = -evaluate_board demoRules DemoPos.P0 :=
  (C2_eval_is_signed_material DemoPos CMove demoRules DemoPos.P0 DemoPos.P2
    (fun k s => by cases k <;> cases s <;> rfl) (by decide)).2

/-- C3: every search call (minimax at any depth, window and polarity, and
get_best_move at any depth) returns the board exactly as it received it:
piece placement, side to move and move stack are restored because every
push is matched by exactly one pop, also on every pruning exit. -/
theorem C3_search_restores_position :
    ∀ (Pos M : Type) (R : Rules Pos M) (b : Board Pos),
      (∀ (d : Nat) (alpha beta : EInt) (mx : Bool), (minimax R d b alpha beta mx).2 = b) ∧
      (∀ depth : Nat, (get_best_move R b depth).2 = b) :=
  fun _ _ R b =>
    ⟨fun d alpha beta mx => minimax_snd R d b alpha beta mx,
     fun depth => get_best_move_snd R b depth⟩

/-- C4: the move (and final board) chosen by the pruning search equals
the one chosen by the identical search with the pruning break removed,
for every rules engine, position and depth. -/
theorem C4_pruning_preserves_choice :
    ∀ (Pos M : Type) (R : Rules Pos M) (b : Board Pos) (depth : Nat),
      get_best_move R b depth = get_best_moveNP R b depth := by
  intro Pos M R b depth
  unfold get_best_move get_best_moveNP
  have hf : (fun b' => minimax R (depth - 1) b' ⊥ ⊤ false)
      = fun b' : Board Pos => minimaxNP R (depth - 1) b' ⊥ ⊤ false :=
    funext fun b' => minimax_eq_NP_full R (depth - 1) b'
  rw [hf]

/-- C5: get_best_move is deterministic; whenever it returns a move, that
move is the first one in the rules engine's enumeration whose child value
strictly exceeds every earlier child's value and is not exceeded later
(first-encountered move wins ties); and from the standard initial
position at depth 1 every first move scores 0 and the first enumerated
move is returned. -/
theorem C5_deterministic_first_max :
    (∀ (Pos M : Type) (R : Rules Pos M) (b1 b2 : Board Pos) (d1 d2 : Nat),
        b1 = b2 → d1 = d2 → get_best_move R b1 d1 = get_best_move R b2 d2) ∧
    (∀ (Pos M : Type) (R : Rules Pos M), R.Ok →
      ∀ (b : Board Pos) (depth : Nat) (m : M),
        (get_best_move R b depth).1 = some m →
        ∃ l1 l2, R.moves b.pos = l1 ++ m :: l2 ∧
          (∀ m' ∈ l1, (minimax R (depth - 1) (Board.push R b m') ⊥ ⊤ false).1
              < (minimax R (depth - 1) (Board.push R b m) ⊥ ⊤ false).1) ∧
          (∀ m' ∈ l2, (minimax R (depth - 1) (Board.push R b m') ⊥ ⊤ false).1
              ≤ (minimax R (depth - 1) (Board.push R b m) ⊥ ⊤ false).1)) ∧
    ((get_best_move stdRules ⟨SPos.start, []⟩ 1).1 = (stdRules.moves SPos.start).head? ∧
      ∀ m ∈ stdRules.moves SPos.start,
        (minimax stdRules 0 (Board.push stdRules ⟨SPos.start, []⟩ m) ⊥ ⊤ false).1
          = EInt.ofInt 0) := by
  refine ⟨fun Pos M R b1 b2 d1 d2 hb hd => by rw [hb, hd], ?_, ?_, ?_⟩
  · intro Pos M R hOk b depth m hm
    have hres := bestLoop_argmax R (fun b' => minimax R (depth - 1) b' ⊥ ⊤ false) b
      (fun b' => minimax_snd R (depth - 1) b' ⊥ ⊤ false)
      (fun m' => by
        rw [minimax_full_window]
        exact (V_finite R hOk (depth - 1) (Board.push R b m') false).1)
      (R.moves b.pos) none ⊥ [] (Or.inl ⟨rfl, rfl, rfl⟩) m hm
    simpa using hres
  · decide
  · decide

/-- C5 witness: in the demo position the depth-1 search returns demoQ1,
and demoQ1 is indeed the first move attaining the maximum child value. -/
theorem C5_witness :
    ∃ l1 l2, demoRules.moves DemoPos.P0 = l1 ++ demoQ1 :: l2 ∧
      (∀ m' ∈ l1,
        (minimax demoRules 0 (Board.push demoRules ⟨DemoPos.P0, []⟩ m') ⊥ ⊤ false).1
          < (minimax demoRules 0 (Board.push demoRules ⟨DemoPos.P0, []⟩ demoQ1) ⊥ ⊤ false).1) ∧
      (∀ m' ∈ l2,
        (minimax demoRules 0 (Board.push demoRules ⟨DemoPos.P0, []⟩ m') ⊥ ⊤ false).1
          ≤ (minimax demoRules 0 (Board.push demoRules ⟨DemoPos.P0, []⟩ demoQ1) ⊥ ⊤ false).1) :=
  C5_deterministic_first_max.2.1 DemoPos CMove demoRules (by decide)
    ⟨DemoPos.P0, []⟩ 1 demoQ1 (by decide)

/-- C6: when the legal-move set is empty, get_best_move returns none at
any depth at least 1. -/
theorem C6_no_moves_returns_none :
    ∀ (Pos M : Type) (R : Rules Pos M) (b : Board Pos) (depth : Nat),
      R.moves b.pos = [] → 1 ≤ depth → (get_best_move R b depth).1 = none := by
  intro Pos M R b depth h _
  unfold get_best_move
  rw [h]
  rfl

/-- C6 witness: the bare-kings demo position has no legal moves and the
search returns none at depth 1. -/
theorem C6_witness : (get_best_move demoRules ⟨DemoPos.P1, []⟩ 1).1 = none :=
  C6_no_moves_returns_none DemoPos CMove demoRules ⟨DemoPos.P1, []⟩ 1 (by decide) (by decide)

/-- C7: whenever get_best_move returns a move, that move belongs to the
rules engine's legal-move enumeration of the position searched. -/
theorem C7_returned_move_is_legal :
    ∀ (Pos M : Type) (R : Rules Pos M) (b : Board Pos) (depth : Nat) (m : M),
      (get_best_move R b depth).1 = some m → m ∈ R.moves b.pos := by
  intro Pos M R b depth m hm
  rcases bestLoop_mem R _ (R.moves b.pos) b none ⊥ m hm with h | h
  · exact h
  · exact absurd h (by simp)

/-- C7 witness: in the demo position the depth-1 search returns demoQ1,
which is one of the three legal moves. -/
theorem C7_witness : demoQ1 ∈ demoRules.moves DemoPos.P0 :=
  C7_returned_move_is_legal DemoPos CMove demoRules ⟨DemoPos.P0, []⟩ 1 demoQ1 (by decide)

/-- C8: with an origin pending, a click on a destination that does not
form a legal move applies no move, clears the pending origin and returns
to awaiting an origin selection; the clicked square is not reinterpreted
as a fresh origin in the same event. -/
theorem C8_illegal_destination_resets :
    ∀ (Pos : Type) (R : Rules Pos CMove) (st : MainState Pos) (orig sq : Nat),
      st.selected = some orig →
      R.turn st.board.pos = player_color →
      CMove.mk orig sq none ∉ R.moves st.board.pos →
      procEvents R [Event.click sq] st = { st with selected := none } :=
  fun _ R st orig sq hsel hturn hmove =>
    procEvents_click_illegal R st orig sq hsel hturn hmove

/-- C8 witness: in the demo position with origin b4 pending, a click on
a1 (not a legal destination) leaves the board unchanged and clears the
pending origin. -/
theorem C8_witness :
    procEvents demoRules [Event.click 0]
        ⟨⟨DemoPos.P0, []⟩, some 25, true⟩ = ⟨⟨DemoPos.P0, []⟩, none, true⟩ :=
  C8_illegal_destination_resets DemoPos demoRules ⟨⟨DemoPos.P0, []⟩, some 25, true⟩ 25 0
    rfl rfl (by decide)

/-- C9: one main-loop iteration entered with the engine to move on an
already terminal position never invokes the search engine and ends with
the session no longer running. -/
theorem C9_terminal_skips_search :
    ∀ (Pos : Type) (R : Rules Pos CMove) (st : MainState Pos) (evs : List Event),
      R.turn st.board.pos ≠ player_color →
      R.gameOver st.board.pos = true →
      (loopIter R evs st).2 = false ∧ (loopIter R evs st).1.running = false := by
  intro Pos R st evs hturn hgo
  have hpe := procEvents_not_player R evs st hturn
  have hgo1 : R.gameOver (procEvents R evs st).board.pos = true := by
    rw [hpe.1]
    exact hgo
  have hai := aiPhase_gameOver R (procEvents R evs st) hgo1
  constructor
  · simp [loopIter, hai]
  · simp [loopIter, hai, endPhase_gameOver R _ hgo1]

/-- C9 witness: with the terminal bare-kings position and Black (the
engine) to move, an iteration with a pending click invokes no search and
stops the session. -/
theorem C9_witness :
    (loopIter demoRules [Event.click 3] ⟨⟨DemoPos.P1, []⟩, none, true⟩).2 = false ∧
    (loopIter demoRules [Event.click 3] ⟨⟨DemoPos.P1, []⟩, none, true⟩).1.running = false :=
  C9_terminal_skips_search DemoPos demoRules ⟨⟨DemoPos.P1, []⟩, none, true⟩
    [Event.click 3] (by decide) (by decide)

/-- C10: with a human pawn as pending origin and every legal move from
that origin to the clicked square carrying a promotion piece, the click
commits no move: the constructed move has no promotion piece, hence is
not in the legal-move set, the position is unchanged and the pending
origin is cleared; the human interface can never play a promotion. -/
theorem C10_no_promotion_via_click :
    ∀ (Pos : Type) (R : Rules Pos CMove) (st : MainState Pos) (orig sq : Nat),
      st.selected = some orig →
      R.turn st.board.pos = player_color →
      R.pieceAt st.board.pos orig = some (Piece.pawn, player_color) →
      (∀ m ∈ R.moves st.board.pos, m.src = orig → m.dst = sq → m.promo ≠ none) →
      CMove.mk orig sq none ∉ R.moves st.board.pos ∧
      procEvents R [Event.click sq] st = { st with selected := none } := by
  intro Pos R st orig sq hsel hturn _ hpromo
  have hnot : CMove.mk orig sq none ∉ R.moves st.board.pos := fun hmem =>
    hpromo _ hmem rfl rfl rfl
  exact ⟨hnot, procEvents_click_illegal R st orig sq hsel hturn hnot⟩

/-- C10 witness: a White pawn on a7 with only promotion moves to a8; the
click on a8 constructs a promotion-less move, which is illegal, so the
board is unchanged and the origin cleared. -/
theorem C10_witness :
    CMove.mk 48 56 none ∉ promoRules.moves PPos.p0 ∧
    procEvents promoRules [Event.click 56]
        ⟨⟨PPos.p0, []⟩, some 48, true⟩ = ⟨⟨PPos.p0, []⟩, none, true⟩ :=
  C10_no_promotion_via_click PPos promoRules ⟨⟨PPos.p0, []⟩, some 48, true⟩ 48 56
    rfl rfl rfl (by decide)

end Chess
